import Mathlib

/-!
Verification of the land/water polygon engine of the venue_map repository.

The definitions below are a shallow embedding, over exact rational
arithmetic, of the functions in `src/background/coastline_water.py`,
`src/background/water.py`, `src/get_water.py` and `src/water_debug.py`.
Calls into the shapely/GEOS geometry library that compute areas,
intersections, unions, differences and buffers of arbitrary curved
geometries are treated as oracles (explicit function parameters or
precomputed fields), while every piece of arithmetic, control flow and
list manipulation written in the repository itself is embedded directly.
Axis-aligned geometry that the repository performs through shapely on
rectangles and polylines (clipping to the frame, projection onto and
interpolation along the rectangular frame boundary, distance to the frame
boundary) is modelled concretely, since on axis-aligned data those
library calls have exact rational semantics.
-/

/-- A planar point, embedded with exact rational coordinates. -/
abbrev Q2 : Type := ℚ × ℚ

/-- The axis-aligned map frame `(xmin, ymin, xmax, ymax)`; the embedding of
the shapely `box(map_bounds['xlim'][0], map_bounds['ylim'][0], ...)`
rectangles built throughout `coastline_water.py` and `water_debug.py`. -/
structure Box where
  xmin : ℚ
  ymin : ℚ
  xmax : ℚ
  ymax : ℚ
deriving DecidableEq, Repr

/-- Membership of a point in the closed rectangle of a `Box`
(shapely polygon containment is boundary-inclusive). -/
def inBox (b : Box) (p : Q2) : Prop :=
  b.xmin ≤ p.1 ∧ p.1 ≤ b.xmax ∧ b.ymin ≤ p.2 ∧ p.2 ≤ b.ymax

instance (b : Box) (p : Q2) : Decidable (inBox b p) := by
  unfold inBox; infer_instance

/-- The point `p + t (q - p)` on the segment from `p` to `q`. -/
def interp (p q : Q2) (t : ℚ) : Q2 :=
  (p.1 + t * (q.1 - p.1), p.2 + t * (q.2 - p.2))

/-- Consecutive pairs of a list: the edges of a polyline given by its
vertex list. -/
def pairs (l : List Q2) : List (Q2 × Q2) :=
  l.zip l.tail

/-- An abstract shapely geometry as the hole assembler and the coastline
connector observe it: its (`.area`) and its validity flag (`.is_valid`).
All other structure of the geometry is irrelevant to the embedded
control flow. -/
structure Geom where
  valid : Bool
  area : ℚ
deriving DecidableEq, Repr

/-! ## Classifier of `create_complete_water_polygons_from_segments`
(`src/background/coastline_water.py`, lines 638-734).

A candidate face as the classification loop observes it: shapely
validity, area, and the precomputed intersection areas
`poly.intersection(island_poly).area` with each known island polygon and
`poly.intersection(greenery_poly).area` with each greenery polygon
(zero for a polygon the face does not intersect, so summing the list is
exactly the accumulation loop of the source). -/
structure FacePoly where
  valid : Bool
  area : ℚ
  islandInter : List ℚ
  greeneryInter : List ℚ
deriving DecidableEq, Repr

/-- The filter `valid_polygons = [p for p in polygons if p.is_valid and p.area > 1000]`
(line 654 of `coastline_water.py`; the same filter appears at line 178 in
`create_archipelago_water`). -/
def valid_polygons (l : List FacePoly) : List FacePoly :=
  l.filter (fun p => p.valid && decide ((1000 : ℚ) < p.area))

/-- Check 1 of the classification loop: the face is a known island when
`total_island_area / area > 0.8` (lines 691-705). -/
def islandLand (f : FacePoly) : Bool :=
  decide ((8 : ℚ) / 10 < f.islandInter.sum / f.area)

/-- The full `is_land` classification of a face (lines 688-721): island
check first; only when it fails, the greenery check
`greenery_ratio > 0.05` on `total_greenery_area / area`. -/
def is_land_face (f : FacePoly) : Bool :=
  if islandLand f then true
  else decide ((5 : ℚ) / 100 < f.greeneryInter.sum / f.area)

/-- The water output of `create_complete_water_polygons_from_segments`:
the classification loop (lines 683-730) walks `valid_polygons`, skips
faces with `area <= 0`, and appends exactly the faces not classified as
land. -/
def create_complete_water_polygons_from_segments (faces : List FacePoly) :
    List FacePoly :=
  (valid_polygons faces).filter
    (fun p => decide ((0 : ℚ) < p.area) && !is_land_face p)

/-! ## Classifier of `water_debug.py` (lines 99-137). -/

/-- The classification labels used by `water_debug.py` (the strings
`'land'`, `'water'`, `'unknown'`). -/
inductive LabelType where
  | land
  | water
  | unknown
deriving DecidableEq, Repr

/-- The orientation-vote outcome (lines 105-117): each element of `rs` is
the `is_on_right_side` result for one coastline whose path intersects the
face boundary (`some true` = water vote, `some false` = land vote,
`none` = no vote). `votes['land'] > votes['water']` gives land,
the reverse gives water, otherwise the label stays `'unknown'`. -/
def voteType (rs : List (Option Bool)) : LabelType :=
  let w := rs.count (some true)
  let l := rs.count (some false)
  if w < l then .land
  else if l < w then .water
  else .unknown

/-- Lines 119-121: an `'unknown'` vote outcome is resolved by whether the
face boundary intersects the frame boundary (`touches`): water if it
does, land otherwise. -/
def initialType (rs : List (Option Bool)) (touches : Bool) : LabelType :=
  match voteType rs with
  | .unknown => if touches then .water else .land
  | t => t

/-- The greenery veto of `water_debug.py` (line 130):
`any(poly.intersects(gp) and poly.intersection(gp).area > 20000 ...)`,
where `greeneryInter` lists the per-greenery-polygon intersection areas. -/
def greeneryVetoWD (greeneryInter : List ℚ) : Bool :=
  greeneryInter.any (fun a => decide ((20000 : ℚ) < a))

/-- Final label of `water_debug.py` (lines 125-136): the veto applies only
when the initial label is not `'land'`. -/
def finalTypeWD (rs : List (Option Bool)) (touches : Bool)
    (greeneryInter : List ℚ) : LabelType :=
  let init := initialType rs touches
  if init ≠ .land ∧ greeneryVetoWD greeneryInter then .land else init

/-! ## Hole assembly tail of `assemble_multipolygon_working`
(`src/background/water.py`, lines 244-295). -/

/-- The significant-hole filter (lines 249-257): keep inner polygons with
`inner_poly.area >= min_hole_area` where `min_hole_area = 1000.0`. -/
def significant_inner_polys (inner : List Geom) : List Geom :=
  inner.filter (fun g => decide ((1000 : ℚ) ≤ g.area))

/-- Lines 259-263: a single significant inner polygon is used directly,
several are combined by `unary_union` (an oracle `uu`; `none` models the
union raising, which the surrounding `except` turns into the no-hole
fallback). -/
def innerUnionOf (uu : List Geom → Option Geom) : List Geom → Option Geom
  | [g] => some g
  | l => uu l

/-- The hole application of `assemble_multipolygon_working`
(lines 244-276): starting from the already-unified outer geometry,
filter significant holes, union them, and subtract (`diff` is the
`unified_outer.difference(unified_inner)` oracle, `none` modelling a
raised exception, which the `except` clause turns into the fallback).
The difference result is kept only when its area is positive; in every
other branch (`inner_polys` empty, no significant hole, invalid inner
union, exception, non-positive difference area) the un-holed
`unified_outer` is returned. -/
def apply_holes_working (uu : List Geom → Option Geom)
    (diff : Geom → Geom → Option Geom)
    (unified_outer : Geom) (inner_polys : List Geom) : Geom :=
  if inner_polys.isEmpty then unified_outer
  else
    let sig := significant_inner_polys inner_polys
    if sig.isEmpty then unified_outer
    else
      match innerUnionOf uu sig with
      | none => unified_outer
      | some ui =>
        if ui.valid then
          match diff unified_outer ui with
          | none => unified_outer
          | some r => if (0 : ℚ) < r.area then r else unified_outer
        else unified_outer

/-! ## `connect_coastlines_to_polygon`
(`src/background/water.py`, lines 13-107; the identical function also
appears in `src/get_water.py`, lines 15-109). -/

/-- The shapely operations `connect_coastlines_to_polygon` invokes,
as oracles. `mergeCoords` is `linemerge` followed by the coordinate
collection of lines 20-33 (`none` = exception, caught by the outer
`except` clause). `mkPolygon coords` is `Polygon(coords)` observed through
`.is_valid`/`.area` (`none` = constructor raised). `makeValid coords` is
`make_valid(Polygon(coords))` (`none` = raised). `bufferLine coords` is
`LineString(coords).buffer(0.0001)` (`none` = raised). -/
structure GeomOracles where
  mergeCoords : List (List Q2) → Option (List Q2)
  mkPolygon : List Q2 → Option Geom
  makeValid : List Q2 → Option Geom
  bufferLine : List Q2 → Option Geom

/-- Lines 38-41: `clean_coords` keeps the first coordinate and every
coordinate different from the last kept one (consecutive-duplicate
removal). -/
def dedupConsec : List Q2 → List Q2
  | [] => []
  | x :: xs => x :: dedupConsecGo x xs
where
  dedupConsecGo (prev : Q2) : List Q2 → List Q2
    | [] => []
    | y :: ys => if y = prev then dedupConsecGo prev ys
                 else y :: dedupConsecGo y ys

/-- The closing append `if clean_coords[0] != clean_coords[-1]: clean_coords.append(clean_coords[0])`
(lines 55-56 and 68-69). -/
def closeIfOpen (l : List Q2) : List Q2 :=
  if l.headI = l.getLastD (0, 0) then l else l ++ [l.headI]

/-- Squared euclidean distance between two points. -/
def sqDistQ (p q : Q2) : ℚ :=
  (p.1 - q.1) ^ 2 + (p.2 - q.2) ^ 2

/-- Line 54: `endpoint_distance < buffer_distance` with the default
`buffer_distance = 0.001`; stated on squared distances
(`d < 0.001 ↔ d^2 < 0.000001` for the nonnegative distance `d`). -/
def endpointsClose (l : List Q2) : Bool :=
  decide (sqDistQ l.headI (l.getLastD (0, 0)) < 1 / 1000000)

/-- Keep an oracle geometry only when it is valid with positive area
(`if poly.is_valid and poly.area > 0: return poly`). -/
def acceptValidPos : Option Geom → Option Geom
  | some g => if g.valid && decide ((0 : ℚ) < g.area) then some g else none
  | none => none

/-- Keep an oracle geometry only when its area is positive
(`if hasattr(g, 'area') and g.area > 0: return g`). -/
def acceptPos : Option Geom → Option Geom
  | some g => if decide ((0 : ℚ) < g.area) then some g else none
  | none => none

/-- Strategy 1 (lines 47-63): only when the endpoints are within the
buffer distance, close the ring and accept a valid positive-area
polygon. -/
def stratOne (O : GeomOracles) (clean : List Q2) : Option Geom :=
  if endpointsClose clean then acceptValidPos (O.mkPolygon (closeIfOpen clean))
  else none

/-- The coordinate list after strategy 1: the in-place `append` of line 56
persists into strategy 2 whether or not polygon creation succeeded. -/
def coordsAfter1 (clean : List Q2) : List Q2 :=
  if endpointsClose clean then closeIfOpen clean else clean

/-- Strategy 2 (lines 65-83): for lists of length at least 4, force
closure; accept a valid positive-area polygon, otherwise accept the
`make_valid` repair when its area is positive (its validity is not
re-checked by the source). -/
def stratTwo (O : GeomOracles) (c1 : List Q2) : Option Geom :=
  if 4 ≤ c1.length then
    match O.mkPolygon (closeIfOpen c1) with
    | none => none
    | some g =>
      if g.valid && decide ((0 : ℚ) < g.area) then some g
      else acceptPos (O.makeValid (closeIfOpen c1))
  else none

/-- The coordinate list after strategy 2 (line 68-69 mutation). -/
def coordsAfter2 (c1 : List Q2) : List Q2 :=
  if 4 ≤ c1.length then closeIfOpen c1 else c1

/-- Strategy 3 (lines 85-101): buffer the line and accept a
positive-area result. -/
def stratThree (O : GeomOracles) (c2 : List Q2) : Option Geom :=
  acceptPos (O.bufferLine c2)

/-- The function `connect_coastlines_to_polygon(lines)` (lines 13-107): `None` for an
empty input; `None` when `linemerge` raises; `None` when fewer than 3
merged coordinates survive (before or after consecutive-duplicate
removal); otherwise the three strategies in order, falling through to
`None`. -/
def connect_coastlines_to_polygon (O : GeomOracles) (lines : List (List Q2)) :
    Option Geom :=
  if lines.isEmpty then none
  else
    match O.mergeCoords lines with
    | none => none
    | some all =>
      if all.length < 3 then none
      else if (dedupConsec all).length < 3 then none
      else
        match stratOne O (dedupConsec all) with
        | some g => some g
        | none =>
          match stratTwo O (coordsAfter1 (dedupConsec all)) with
          | some g => some g
          | none => stratThree O (coordsAfter2 (coordsAfter1 (dedupConsec all)))

/-! ## Frame Clipper: `split_coastline_at_boundary_intersections`
(`src/background/coastline_water.py`, lines 607-635).

The source computes `coastline.intersection(map_boundary)` through
shapely and then keeps only the `LineString` parts. For a polyline
against an axis-aligned rectangle that library call has exact rational
semantics, modelled here concretely: every edge of the polyline is
clipped to the closed rectangle by intersecting the parameter interval
`[0,1]` with the four half-plane constraints, degenerate (single-point)
intersections are dropped exactly as the `GeometryCollection` branch of
the source drops `Point` parts, and consecutive surviving edge pieces
that share an endpoint are joined into maximal pieces, mirroring how
shapely returns one `LineString` per connected part. -/

/-- Constrain a parameter interval by `a + t * d ≥ c`. -/
def clampGE (a d c : ℚ) (iv : ℚ × ℚ) : Option (ℚ × ℚ) :=
  if 0 < d then some (max iv.1 ((c - a) / d), iv.2)
  else if d < 0 then some (iv.1, min iv.2 ((c - a) / d))
  else if c ≤ a then some iv else none

/-- Constrain a parameter interval by `a + t * d ≤ c`. -/
def clampLE (a d c : ℚ) (iv : ℚ × ℚ) : Option (ℚ × ℚ) :=
  if 0 < d then some (iv.1, min iv.2 ((c - a) / d))
  else if d < 0 then some (max iv.1 ((c - a) / d), iv.2)
  else if a ≤ c then some iv else none

/-- The parameter sub-interval of `[0,1]` along which the segment from
`p` to `q` lies inside the closed rectangle. -/
def segParamInterval (b : Box) (p q : Q2) : Option (ℚ × ℚ) :=
  match clampGE p.1 (q.1 - p.1) b.xmin (0, 1) with
  | none => none
  | some i1 =>
    match clampLE p.1 (q.1 - p.1) b.xmax i1 with
    | none => none
    | some i2 =>
      match clampGE p.2 (q.2 - p.2) b.ymin i2 with
      | none => none
      | some i3 =>
        match clampLE p.2 (q.2 - p.2) b.ymax i3 with
        | none => none
        | some i4 => if i4.1 ≤ i4.2 then some i4 else none

/-- The part of the segment from `p` to `q` inside the rectangle, when it
is one-dimensional (single-point touches yield `none`, as the source
discards `Point` geometries). -/
def segClip (b : Box) (p q : Q2) : Option (Q2 × Q2) :=
  match segParamInterval b p q with
  | none => none
  | some (lo, hi) =>
    if lo < hi then some (interp p q lo, interp p q hi) else none

/-- Join consecutive surviving edge pieces that share an endpoint into
maximal polyline pieces. The accumulator holds the current piece in
reverse vertex order. -/
def stitchAll : Option (List Q2) → List (Option (Q2 × Q2)) → List (List Q2)
  | none, [] => []
  | some cur, [] => [cur.reverse]
  | none, none :: rest => stitchAll none rest
  | some cur, none :: rest => cur.reverse :: stitchAll none rest
  | none, some (a, c) :: rest => stitchAll (some [c, a]) rest
  | some cur, some (a, c) :: rest =>
    if cur.head? = some a then stitchAll (some (c :: cur)) rest
    else cur.reverse :: stitchAll (some [c, a]) rest

/-- The clipper `split_coastline_at_boundary_intersections(coastline, map_boundary)`:
the list of polyline pieces of `pts` inside the rectangle `b`. -/
def split_coastline_at_boundary_intersections (b : Box) (pts : List Q2) :
    List (List Q2) :=
  stitchAll none ((pairs pts).map (fun pr => segClip b pr.1 pr.2))

/-! ## Frame segmentation: `create_frame_with_coastline_vertices`
(`src/background/coastline_water.py`, lines 530-604), together with the
rectangle-boundary projection, interpolation and distance that the source
performs through shapely on the frame rectangle. -/

/-- The ring `list(map_boundary.exterior.coords)` for a shapely
`box(xmin, ymin, xmax, ymax)`: counter-clockwise from `(xmax, ymin)`,
explicitly closed. -/
def boxExteriorCoords (b : Box) : List Q2 :=
  [(b.xmax, b.ymin), (b.xmax, b.ymax), (b.xmin, b.ymax), (b.xmin, b.ymin),
   (b.xmax, b.ymin)]

/-- The length `frame_line.length`: the perimeter of the rectangle (the edges are
axis-aligned, so euclidean edge lengths are exact). -/
def rectPerimeter (b : Box) : ℚ :=
  2 * |b.xmax - b.xmin| + 2 * |b.ymax - b.ymin|

/-- Clamp `x` into the closed interval spanned by `a` and `c`. -/
def clampQ (x a c : ℚ) : ℚ :=
  max (min a c) (min x (max a c))

/-- Squared euclidean distance from `v` to the axis-aligned segment from
`p` to `q` (the nearest point clamps each coordinate independently, which
is exact because one coordinate of the segment is constant). -/
def sqDistToSeg (p q v : Q2) : ℚ :=
  (v.1 - clampQ v.1 p.1 q.1) ^ 2 + (v.2 - clampQ v.2 p.2 q.2) ^ 2

/-- The distance `map_boundary.boundary.distance(point)` squared: the minimum over the
four frame edges. The source compares the distance with the 1 m
tolerance; since `d < 1 ↔ d² < 1` for the nonnegative distance `d`, the
comparison is embedded on squared distances. -/
def sqDistToFrame (b : Box) (v : Q2) : ℚ :=
  min (min (sqDistToSeg (b.xmax, b.ymin) (b.xmax, b.ymax) v)
           (sqDistToSeg (b.xmax, b.ymax) (b.xmin, b.ymax) v))
      (min (sqDistToSeg (b.xmin, b.ymax) (b.xmin, b.ymin) v)
           (sqDistToSeg (b.xmin, b.ymin) (b.xmax, b.ymin) v))

/-- Walk the frame edges accumulating arc length, tracking the first
strictly-nearest point to `v` (squared distance, arc-length position):
the embedding of `frame_line.project(point)` on the axis-aligned
rectangle ring. -/
def projectWalk (v : Q2) : List (Q2 × Q2) → ℚ → Option (ℚ × ℚ) → ℚ
  | [], _, none => 0
  | [], _, some bd => bd.2
  | (p, q) :: rest, off, best =>
    let c : Q2 := (clampQ v.1 p.1 q.1, clampQ v.2 p.2 q.2)
    let sq := (v.1 - c.1) ^ 2 + (v.2 - c.2) ^ 2
    let d := off + |c.1 - p.1| + |c.2 - p.2|
    projectWalk v rest (off + |q.1 - p.1| + |q.2 - p.2|)
      (match best with
       | none => some (sq, d)
       | some (bs, bd) => if sq < bs then some (sq, d) else some (bs, bd))

/-- The projection `frame_line.project(Point(v))` for the frame rectangle ring. -/
def rectProject (b : Box) (v : Q2) : ℚ :=
  projectWalk v (pairs (boxExteriorCoords b)) 0 none

/-- The point at arc length `d` along the axis-aligned segment from `p`
to `q` of length `len`. -/
def pointAlong (p q : Q2) (d len : ℚ) : Q2 :=
  if len = 0 then p else interp p q (d / len)

/-- The interpolation `line.interpolate(d)` for an axis-aligned polyline: walk the edges
consuming arc length; past the end, the final vertex. -/
def polylineInterp : List Q2 → ℚ → Q2
  | [], _ => (0, 0)
  | [p], _ => p
  | p :: q :: rest, d =>
    if d ≤ |q.1 - p.1| + |q.2 - p.2| then
      pointAlong p q d (|q.1 - p.1| + |q.2 - p.2|)
    else polylineInterp (q :: rest) (d - (|q.1 - p.1| + |q.2 - p.2|))

/-- The interpolation `frame_line.interpolate(d)` for the frame rectangle ring. -/
def rectInterp (b : Box) (d : ℚ) : Q2 :=
  polylineInterp (boxExteriorCoords b) d

/-- Python float modulo `d % m` for the arc-length wrap-around
(`dist % total_length`). -/
def qmod (d m : ℚ) : ℚ :=
  d - m * ⌊d / m⌋

/-- Python tuple comparison for `vertex_positions.sort()`: ascending
lexicographic order on `(distance, (x, y))`. -/
def posLE (x y : ℚ × Q2) : Bool :=
  decide (x.1 < y.1 ∨ (x.1 = y.1 ∧
    (x.2.1 < y.2.1 ∨ (x.2.1 = y.2.1 ∧ x.2.2 ≤ y.2.2))))

/-- Ordered insertion for the stable ascending sort of
`vertex_positions`. -/
def insertPos (x : ℚ × Q2) : List (ℚ × Q2) → List (ℚ × Q2)
  | [] => [x]
  | y :: ys => if posLE x y then x :: y :: ys else y :: insertPos x ys

/-- The sort `vertex_positions.sort()`. -/
def sortPos (l : List (ℚ × Q2)) : List (ℚ × Q2) :=
  l.foldr insertPos []

/-- Lines 559-564: keep position `i` when `i == 0` or its distance
exceeds that of position `i-1` of the *sorted* list by more than the 10 m
minimum separation. -/
def dedupPositions : List (ℚ × Q2) → List (ℚ × Q2)
  | [] => []
  | x :: xs => x :: dedupPositionsGo x xs
where
  dedupPositionsGo (prev : ℚ × Q2) : List (ℚ × Q2) → List (ℚ × Q2)
    | [] => []
    | y :: ys => (if 10 < y.1 - prev.1 then [y] else []) ++ dedupPositionsGo y ys

/-- Lines 590-595: the sampled coordinates of one frame arc,
`num_points = max(10, int((end_dist - start_dist) / 100))` samples plus
one, each interpolated at `(start + (end - start) * j / num) % total`. -/
def frameArcCoords (b : Box) (total startD endD : ℚ) : List Q2 :=
  (List.range ((max 10 ⌊(endD - startD) / 100⌋).toNat + 1)).map
    (fun j => rectInterp b
      (qmod (startD + (endD - startD) * (j : ℚ) /
         (((max 10 ⌊(endD - startD) / 100⌋).toNat : ℚ))) total))

/-- The frame segmentation `create_frame_with_coastline_vertices(map_boundary, points)`
(lines 530-604): with no touch points, the four corner-to-corner edges;
otherwise project the touch points onto the frame ring, sort, deduplicate
within 10 m, and emit the sampled arc between consecutive positions
whenever it is longer than 1 m — but only when it is *strictly shorter
than half the perimeter* (the source has no branch for longer arcs). -/
def create_frame_with_coastline_vertices (b : Box) (touchPoints : List Q2) :
    List (List Q2) :=
  if touchPoints.isEmpty then
    [[(b.xmin, b.ymin), (b.xmax, b.ymin)],
     [(b.xmax, b.ymin), (b.xmax, b.ymax)],
     [(b.xmax, b.ymax), (b.xmin, b.ymax)],
     [(b.xmin, b.ymax), (b.xmin, b.ymin)]]
  else
    let total := rectPerimeter b
    let uniq := dedupPositions (sortPos (touchPoints.map (fun p =>
      (rectProject b p, rectInterp b (rectProject b p)))))
    (List.range uniq.length).flatMap (fun i =>
      let startD := (uniq.getD i (0, (0, 0))).1
      let end0 := (uniq.getD ((i + 1) % uniq.length) (0, (0, 0))).1
      let endD := if end0 < startD then end0 + total else end0
      if 1 < endD - startD then
        if endD - startD < total / 2 then
          if 2 ≤ (frameArcCoords b total startD endD).length then
            [frameArcCoords b total startD endD]
          else []
        else []
      else [])

/-! ## The clipping stage of `fetch_enhanced_coastline_water`
(`src/background/coastline_water.py`, lines 486-516): clip every
coastline to the frame, record the endpoints of clipped pieces lying
within 1 m of the frame boundary as touch points, segment the frame at
those points, and form the combined segment network handed to
`polygonize`. -/

/-- Lines 494-503: collect the endpoints of clipped pieces within the 1 m
tolerance of the frame boundary, in iteration order. -/
def collectTouchPoints (b : Box) (pieces : List (List Q2)) : List Q2 :=
  pieces.flatMap (fun seg =>
    match seg with
    | [] => []
    | s :: _ =>
      (if sqDistToFrame b s < 1 then [s] else []) ++
      (if sqDistToFrame b (seg.getLastD (0, 0)) < 1 then [seg.getLastD (0, 0)]
       else []))

/-- Lines 490-492: clip every coastline segment to the frame. -/
def clipAllCoastlines (b : Box) (coastlines : List (List Q2)) :
    List (List Q2) :=
  coastlines.flatMap (split_coastline_at_boundary_intersections b)

/-- Lines 486-511: the combined segment network
`clipped_coastline_segments + frame_boundary_with_vertices` fed to
`create_complete_water_polygons_from_segments` and thus to
`polygonize`. -/
def enhanced_water_all_segments (b : Box) (coastlines : List (List Q2)) :
    List (List Q2) :=
  clipAllCoastlines b coastlines ++
    create_frame_with_coastline_vertices b
      (collectTouchPoints b (clipAllCoastlines b coastlines))

/-! ### Basic lemmas about the accept combinators. -/

theorem acceptValidPos_pos {o : Option Geom} {g : Geom}
    (h : acceptValidPos o = some g) : (0 : ℚ) < g.area := by
  cases o with
  | none => simp [acceptValidPos] at h
  | some g' =>
    by_cases hc : g'.valid && decide ((0 : ℚ) < g'.area)
    · simp [acceptValidPos, hc] at h
      rcases Bool.and_eq_true_iff.mp hc with ⟨_, h2⟩
      exact h ▸ of_decide_eq_true h2
    · simp [acceptValidPos, hc] at h

theorem acceptPos_pos {o : Option Geom} {g : Geom}
    (h : acceptPos o = some g) : (0 : ℚ) < g.area := by
  cases o with
  | none => simp [acceptPos] at h
  | some g' =>
    by_cases hc : (0 : ℚ) < g'.area
    · simp [acceptPos, hc] at h
      exact h ▸ hc
    · simp [acceptPos, hc] at h

theorem stratOne_pos {O : GeomOracles} {clean : List Q2} {g : Geom}
    (h : stratOne O clean = some g) : (0 : ℚ) < g.area := by
  unfold stratOne at h
  by_cases hc : endpointsClose clean
  · rw [if_pos hc] at h; exact acceptValidPos_pos h
  · rw [if_neg hc] at h; exact absurd h (by simp)

theorem stratTwo_pos {O : GeomOracles} {c1 : List Q2} {g : Geom}
    (h : stratTwo O c1 = some g) : (0 : ℚ) < g.area := by
  unfold stratTwo at h
  by_cases hl : 4 ≤ c1.length
  · rw [if_pos hl] at h
    cases hm : O.mkPolygon (closeIfOpen c1) with
    | none => rw [hm] at h; exact absurd h (by simp)
    | some g' =>
      rw [hm] at h
      dsimp only at h
      by_cases hc : g'.valid && decide ((0 : ℚ) < g'.area)
      · rw [if_pos hc] at h
        rcases Bool.and_eq_true_iff.mp hc with ⟨_, h2⟩
        cases h; exact of_decide_eq_true h2
      · rw [if_neg hc] at h; exact acceptPos_pos h
  · rw [if_neg hl] at h; exact absurd h (by simp)

theorem stratThree_pos {O : GeomOracles} {c2 : List Q2} {g : Geom}
    (h : stratThree O c2 = some g) : (0 : ℚ) < g.area :=
  acceptPos_pos h

/-! ### C10: `connect_coastlines_to_polygon` never returns a
non-positive-area geometry, and returns `None` on empty or too-short
input. -/

/-- C10: for every oracle behaviour and every input list,
`connect_coastlines_to_polygon` returns either `None` or a geometry of
strictly positive area; it returns `None` when the input list is empty,
and `None` whenever the merged, consecutive-duplicate-free coordinate
sequence has fewer than 3 points. -/
theorem connect_coastlines_spec (O : GeomOracles) (lines : List (List Q2)) :
    (∀ g, connect_coastlines_to_polygon O lines = some g → (0 : ℚ) < g.area)
    ∧ (lines = [] → connect_coastlines_to_polygon O lines = none)
    ∧ (∀ all, O.mergeCoords lines = some all →
        (dedupConsec all).length < 3 →
        connect_coastlines_to_polygon O lines = none) := by
  refine ⟨?_, ?_, ?_⟩
  · intro g h
    unfold connect_coastlines_to_polygon at h
    by_cases he : lines.isEmpty
    · rw [if_pos he] at h; exact absurd h (by simp)
    · rw [if_neg he] at h
      cases hm : O.mergeCoords lines with
      | none => rw [hm] at h; exact absurd h (by simp)
      | some all =>
        rw [hm] at h; dsimp only at h
        by_cases h3 : all.length < 3
        · rw [if_pos h3] at h; exact absurd h (by simp)
        · rw [if_neg h3] at h
          by_cases h4 : (dedupConsec all).length < 3
          · rw [if_pos h4] at h; exact absurd h (by simp)
          · rw [if_neg h4] at h
            cases h1 : stratOne O (dedupConsec all) with
            | some g1 => rw [h1] at h; cases h; exact stratOne_pos h1
            | none =>
              rw [h1] at h
              cases h2 : stratTwo O (coordsAfter1 (dedupConsec all)) with
              | some g2 => rw [h2] at h; cases h; exact stratTwo_pos h2
              | none => rw [h2] at h; exact stratThree_pos h
  · intro he
    subst he
    rfl
  · intro all hm h4
    unfold connect_coastlines_to_polygon
    by_cases he : lines.isEmpty
    · rw [if_pos he]
    · rw [if_neg he, hm]; dsimp only
      by_cases h3 : all.length < 3
      · rw [if_pos h3]
      · rw [if_neg h3, if_pos h4]

/-- C10 witness: the theorem applied at concrete inputs — the empty list,
and a two-segment merge whose duplicate-free sequence has only 2
points. -/
theorem connect_coastlines_spec_witness :
    connect_coastlines_to_polygon
      ⟨fun _ => none, fun _ => none, fun _ => none, fun _ => none⟩ [] = none
    ∧ connect_coastlines_to_polygon
      ⟨fun _ => some [(0, 0), (0, 0), (1, 1)], fun _ => none, fun _ => none,
       fun _ => none⟩ [[(0, 0), (1, 1)]] = none := by
  constructor
  · exact (connect_coastlines_spec _ _).2.1 rfl
  · exact (connect_coastlines_spec _ _).2.2 [(0, 0), (0, 0), (1, 1)] rfl
      (by decide)

/-! ### C5: hole assembly of `assemble_multipolygon_working`. -/

/-- C5 counterexample: `assemble_multipolygon_working` keeps any
positive-area subtraction result *without checking its validity*
(line 267 only tests `result_geom.area > 0`), so when the difference
oracle yields an invalid geometry of positive area, that invalid
geometry — not the un-holed outer union — is returned, contradicting the
claim that an invalid subtraction result falls back to the outer
union. -/
theorem hole_subtraction_invalid_result_returned :
    apply_holes_working (fun _ => none) (fun _ _ => some ⟨false, 5⟩)
        ⟨true, 10⟩ [⟨true, 2000⟩] = ⟨false, 5⟩
    ∧ (Geom.mk false 5).valid = false
    ∧ Geom.mk false 5 ≠ Geom.mk true 10 := by
  exact ⟨rfl, rfl, by decide⟩

/-- C5 (amended): inner rings with area below the 1000 m² significance
threshold are discarded; the remaining rings are unioned and subtracted
from the outer union; and whenever the inner union is invalid, the union
or the subtraction raises, or the subtraction result has non-positive
area, the un-holed outer union is returned (the validity of the
subtraction result itself is not checked). -/
theorem hole_assembler_fallbacks (uu : List Geom → Option Geom)
    (diff : Geom → Geom → Option Geom) (outer : Geom) (inner : List Geom) :
    (∀ g ∈ inner, g.area < 1000 → g ∉ significant_inner_polys inner)
    ∧ (innerUnionOf uu (significant_inner_polys inner) = none →
        apply_holes_working uu diff outer inner = outer)
    ∧ (∀ ui, innerUnionOf uu (significant_inner_polys inner) = some ui →
        ui.valid = false → apply_holes_working uu diff outer inner = outer)
    ∧ (∀ ui, innerUnionOf uu (significant_inner_polys inner) = some ui →
        ui.valid = true → diff outer ui = none →
        apply_holes_working uu diff outer inner = outer)
    ∧ (∀ ui r, innerUnionOf uu (significant_inner_polys inner) = some ui →
        ui.valid = true → diff outer ui = some r → r.area ≤ 0 →
        apply_holes_working uu diff outer inner = outer) := by
  refine ⟨?_, ?_, ?_, ?_, ?_⟩
  · intro g _ hlt hmem
    rw [significant_inner_polys, List.mem_filter] at hmem
    exact absurd (of_decide_eq_true hmem.2) (not_le.mpr hlt)
  · intro hu
    unfold apply_holes_working
    by_cases h0 : inner.isEmpty
    · rw [if_pos h0]
    · rw [if_neg h0]; dsimp only
      by_cases hs : (significant_inner_polys inner).isEmpty
      · rw [if_pos hs]
      · rw [if_neg hs, hu]
  · intro ui hu hv
    unfold apply_holes_working
    by_cases h0 : inner.isEmpty
    · rw [if_pos h0]
    · rw [if_neg h0]; dsimp only
      by_cases hs : (significant_inner_polys inner).isEmpty
      · rw [if_pos hs]
      · rw [if_neg hs, hu]; dsimp only
        rw [if_neg (by simp [hv])]
  · intro ui hu hv hd
    unfold apply_holes_working
    by_cases h0 : inner.isEmpty
    · rw [if_pos h0]
    · rw [if_neg h0]; dsimp only
      by_cases hs : (significant_inner_polys inner).isEmpty
      · rw [if_pos hs]
      · rw [if_neg hs, hu]; dsimp only
        rw [if_pos hv, hd]
  · intro ui r hu hv hd hr
    unfold apply_holes_working
    by_cases h0 : inner.isEmpty
    · rw [if_pos h0]
    · rw [if_neg h0]; dsimp only
      by_cases hs : (significant_inner_polys inner).isEmpty
      · rw [if_pos hs]
      · rw [if_neg hs, hu]; dsimp only
        rw [if_pos hv, hd]; dsimp only
        rw [if_neg (not_lt.mpr hr)]

/-- C5 witness: the amended theorem applied at a concrete input whose
subtraction result has zero area, giving back the un-holed outer
geometry. -/
theorem hole_assembler_fallbacks_witness :
    apply_holes_working (fun _ => none) (fun _ _ => some ⟨true, 0⟩)
      ⟨true, 7⟩ [⟨true, 1500⟩] = ⟨true, 7⟩ := by
  exact (hole_assembler_fallbacks _ _ _ _).2.2.2.2 ⟨true, 1500⟩ ⟨true, 0⟩
    rfl rfl rfl (by decide)

/-! ### C1: the island override of
`create_complete_water_polygons_from_segments`. -/

/-- C1: a face whose total overlap area with tagged island/islet polygons
exceeds 80% of its own area is classified land by the island override —
before and regardless of the greenery check — and is therefore excluded
from the water output of `create_complete_water_polygons_from_segments`,
whatever the face list. -/
theorem island_override_forces_land (f : FacePoly) (faces : List FacePoly)
    (hpos : (0 : ℚ) < f.area)
    (hover : 8 / 10 * f.area < f.islandInter.sum) :
    is_land_face f = true
    ∧ f ∉ create_complete_water_polygons_from_segments faces := by
  have hratio : (8 : ℚ) / 10 < f.islandInter.sum / f.area :=
    (lt_div_iff₀ hpos).mpr hover
  have hisl : islandLand f = true := decide_eq_true hratio
  have hland : is_land_face f = true := by
    unfold is_land_face
    rw [hisl]
    rfl
  refine ⟨hland, ?_⟩
  intro hmem
  unfold create_complete_water_polygons_from_segments at hmem
  rw [List.mem_filter] at hmem
  have h2 := hmem.2
  rw [hland] at h2
  simp at h2

/-- C1 witness: a valid face of area 10000 m² with 90% island coverage is
labeled land and excluded from the water output, exactly the spec's
90%-covered example. -/
theorem island_override_forces_land_witness :
    is_land_face ⟨true, 10000, [9000], []⟩ = true
    ∧ (⟨true, 10000, [9000], []⟩ : FacePoly) ∉
        create_complete_water_polygons_from_segments
          [⟨true, 10000, [9000], []⟩] :=
  island_override_forces_land ⟨true, 10000, [9000], []⟩
    [⟨true, 10000, [9000], []⟩] (by norm_num) (by norm_num)

/-! ### C2: the tie-break of the `water_debug.py` classifier. -/

/-- C2: whenever the orientation vote is tied — including the zero-vote
case of a face no coastline touches — the initial label is water exactly
when the face boundary touches the frame boundary, and land otherwise;
the tie-break is a total function of the tally and the touch flag. -/
theorem tie_break_frame_touch (rs : List (Option Bool)) (touches : Bool)
    (htie : rs.count (some true) = rs.count (some false)) :
    initialType rs touches = (if touches then .water else .land) := by
  unfold initialType voteType
  rw [htie]
  simp

/-- C2 witness: a face with zero votes whose boundary touches the frame
is labeled water. -/
theorem tie_break_frame_touch_witness :
    initialType [] true = .water := by
  simpa using tie_break_frame_touch [] true rfl

/-! ### C3: the land-cover (greenery) veto. -/

/-- C3 counterexample: the greenery veto of
`create_complete_water_polygons_from_segments` compares the *ratio*
`total_greenery_area / area` against 0.05 (line 719 of
`coastline_water.py`), so no absolute-area threshold `t` reproduces it:
a valid face of area 1,000,000 m² with 30,000 m² of greenery stays water
while a valid face of area 2,000 m² with only 150 m² of greenery becomes
land, which no fixed absolute overlap threshold can order. -/
theorem greenery_threshold_not_absolute :
    ¬ ∃ t : ℚ, ∀ f : FacePoly, f.islandInter = [] → 1000 < f.area →
        (is_land_face f = true ↔ t < f.greeneryInter.sum) := by
  rintro ⟨t, h⟩
  have hA := h ⟨true, 1000000, [], [30000]⟩ rfl (by norm_num)
  have hB := h ⟨true, 2000, [], [150]⟩ rfl (by norm_num)
  have hAf : is_land_face ⟨true, 1000000, [], [30000]⟩ = false := by
    simp only [is_land_face, islandLand]
    norm_num
  have hBt : is_land_face ⟨true, 2000, [], [150]⟩ = true := by
    simp only [is_land_face, islandLand]
    norm_num
  rw [hAf] at hA
  rw [hBt] at hB
  have h1 : ¬ t < (30000 : ℚ) := fun hcon => by simpa using hA.mpr (by simpa using hcon)
  have h2 : t < (150 : ℚ) := by simpa using hB.mp rfl
  have h3 : (150 : ℚ) ≤ 30000 := by norm_num
  exact h1 (lt_of_lt_of_le h2 h3)

/-- C3 (amended): in `coastline_water.py` the land-cover threshold is a
ratio, not an absolute area — a face that is not island-land is labeled
land exactly when its total greenery overlap exceeds 5% of its own
area — while in `water_debug.py` the veto is absolute: when the initial
label is not land, the final label is land exactly when some single
greenery polygon's overlap exceeds 20,000 m², and otherwise the initial
label is retained. -/
theorem greenery_veto_thresholds :
    (∀ f : FacePoly, f.islandInter.sum / f.area ≤ 8 / 10 →
        (is_land_face f = true ↔ 5 / 100 < f.greeneryInter.sum / f.area))
    ∧ (∀ rs touches g, initialType rs touches ≠ .land →
        finalTypeWD rs touches g =
          (if greeneryVetoWD g then .land else initialType rs touches)) := by
  constructor
  · intro f h
    have hisl : islandLand f = false := decide_eq_false (not_lt.mpr h)
    unfold is_land_face
    rw [hisl]
    simp
  · intro rs touches g hinit
    unfold finalTypeWD
    by_cases hveto : greeneryVetoWD g
    · rw [if_pos ⟨hinit, hveto⟩, if_pos hveto]
    · rw [if_neg (fun hc => hveto hc.2), if_neg hveto]

/-- C3 witness: the amended theorem applied at a face of area 2,000 m²
with 150 m² of greenery (7.5% > 5%, labeled land), and at a frame-touch
water face vetoed by a 30,000 m² greenery overlap. -/
theorem greenery_veto_thresholds_witness :
    (is_land_face ⟨true, 2000, [], [150]⟩ = true ↔
      (5 : ℚ) / 100 <
        (FacePoly.mk true 2000 [] [150]).greeneryInter.sum /
          (FacePoly.mk true 2000 [] [150]).area)
    ∧ finalTypeWD [] true [30000] =
        (if greeneryVetoWD [30000] then .land else initialType [] true) := by
  constructor
  · exact greenery_veto_thresholds.1 ⟨true, 2000, [], [150]⟩ (by norm_num)
  · exact greenery_veto_thresholds.2 [] true [30000] (by decide)

/-! ### C6: the frame with no coastline touch points. -/

/-- C6: when the list of coastline-boundary touch points is empty,
`create_frame_with_coastline_vertices` emits the frame as exactly the 4
corner-to-corner edges — bottom, right, top, left. -/
theorem frame_no_touch_four_edges (b : Box) :
    create_frame_with_coastline_vertices b [] =
      [[(b.xmin, b.ymin), (b.xmax, b.ymin)],
       [(b.xmax, b.ymin), (b.xmax, b.ymax)],
       [(b.xmax, b.ymax), (b.xmin, b.ymax)],
       [(b.xmin, b.ymax), (b.xmin, b.ymin)]] := rfl

/-! ### C8: the degenerate-face filter on polygonize output. -/

/-- C8 counterexample: a shapely-valid face of area 500 m² — far above
the claimed ~1 m² epsilon — is discarded by the `p.area > 1000` filter of
`create_complete_water_polygons_from_segments` (line 654) instead of
being retained as a candidate. -/
theorem area_epsilon_not_one :
    valid_polygons [⟨true, 500, [], []⟩] = [] ∧ (1 : ℚ) ≤ 500 := by
  exact ⟨rfl, by decide⟩

/-- C8 (amended): the polygonize-output filter retains exactly the valid
faces whose area strictly exceeds 1000 m²; every other face — including
valid faces with area between ~1 m² and 1000 m² — is discarded. The area
epsilon of the source is 1000 m², not ~1 m². -/
theorem face_area_filter_spec (l : List FacePoly) (p : FacePoly) :
    p ∈ valid_polygons l ↔ (p ∈ l ∧ p.valid = true ∧ 1000 < p.area) := by
  unfold valid_polygons
  rw [List.mem_filter]
  constructor
  · rintro ⟨h1, h2⟩
    rcases Bool.and_eq_true_iff.mp h2 with ⟨hv, ha⟩
    exact ⟨h1, hv, of_decide_eq_true ha⟩
  · rintro ⟨h1, hv, ha⟩
    refine ⟨h1, ?_⟩
    rw [hv]
    simpa using ha

/-! ### C7: the Frame Clipper. Helper lemmas about the embedded clipping
of a polyline to the frame rectangle, followed by the claim theorem. -/

theorem clampGE_subset {a d c : ℚ} {iv iv' : ℚ × ℚ}
    (h : clampGE a d c iv = some iv') : iv.1 ≤ iv'.1 ∧ iv'.2 ≤ iv.2 := by
  unfold clampGE at h
  by_cases h1 : 0 < d
  · rw [if_pos h1] at h
    cases h
    exact ⟨le_max_left _ _, le_refl _⟩
  · rw [if_neg h1] at h
    by_cases h2 : d < 0
    · rw [if_pos h2] at h
      cases h
      exact ⟨le_refl _, min_le_left _ _⟩
    · rw [if_neg h2] at h
      by_cases h3 : c ≤ a
      · rw [if_pos h3] at h
        cases h
        exact ⟨le_refl _, le_refl _⟩
      · rw [if_neg h3] at h
        exact absurd h (by simp)

theorem clampLE_subset {a d c : ℚ} {iv iv' : ℚ × ℚ}
    (h : clampLE a d c iv = some iv') : iv.1 ≤ iv'.1 ∧ iv'.2 ≤ iv.2 := by
  unfold clampLE at h
  by_cases h1 : 0 < d
  · rw [if_pos h1] at h
    cases h
    exact ⟨le_refl _, min_le_left _ _⟩
  · rw [if_neg h1] at h
    by_cases h2 : d < 0
    · rw [if_pos h2] at h
      cases h
      exact ⟨le_max_left _ _, le_refl _⟩
    · rw [if_neg h2] at h
      by_cases h3 : a ≤ c
      · rw [if_pos h3] at h
        cases h
        exact ⟨le_refl _, le_refl _⟩
      · rw [if_neg h3] at h
        exact absurd h (by simp)

theorem clampGE_sound {a d c : ℚ} {iv iv' : ℚ × ℚ}
    (h : clampGE a d c iv = some iv') {t : ℚ}
    (h1 : iv'.1 ≤ t) (h2 : t ≤ iv'.2) : c ≤ a + t * d := by
  unfold clampGE at h
  by_cases hd : 0 < d
  · rw [if_pos hd] at h
    cases h
    have hq : (c - a) / d ≤ t :=
      le_trans (le_max_right iv.1 ((c - a) / d)) h1
    have h3 := (div_le_iff₀ hd).mp hq
    linarith
  · rw [if_neg hd] at h
    by_cases hd2 : d < 0
    · rw [if_pos hd2] at h
      cases h
      have hq : t ≤ (c - a) / d :=
        le_trans h2 (min_le_right iv.2 ((c - a) / d))
      have h3 := (le_div_iff_of_neg hd2).mp hq
      linarith
    · rw [if_neg hd2] at h
      have hd0 : d = 0 := le_antisymm (not_lt.mp hd) (not_lt.mp hd2)
      by_cases h3 : c ≤ a
      · rw [if_pos h3] at h
        cases h
        rw [hd0]
        linarith
      · rw [if_neg h3] at h
        exact absurd h (by simp)

theorem clampLE_sound {a d c : ℚ} {iv iv' : ℚ × ℚ}
    (h : clampLE a d c iv = some iv') {t : ℚ}
    (h1 : iv'.1 ≤ t) (h2 : t ≤ iv'.2) : a + t * d ≤ c := by
  unfold clampLE at h
  by_cases hd : 0 < d
  · rw [if_pos hd] at h
    cases h
    have hq : t ≤ (c - a) / d :=
      le_trans h2 (min_le_right iv.2 ((c - a) / d))
    have h3 := (le_div_iff₀ hd).mp hq
    linarith
  · rw [if_neg hd] at h
    by_cases hd2 : d < 0
    · rw [if_pos hd2] at h
      cases h
      have hq : (c - a) / d ≤ t :=
        le_trans (le_max_right iv.1 ((c - a) / d)) h1
      have h3 := (div_le_iff_of_neg hd2).mp hq
      linarith
    · rw [if_neg hd2] at h
      have hd0 : d = 0 := le_antisymm (not_lt.mp hd) (not_lt.mp hd2)
      by_cases h3 : a ≤ c
      · rw [if_pos h3] at h
        cases h
        rw [hd0]
        linarith
      · rw [if_neg h3] at h
        exact absurd h (by simp)

theorem segParamInterval_sound {b : Box} {p q : Q2} {lo hi : ℚ}
    (h : segParamInterval b p q = some (lo, hi)) :
    0 ≤ lo ∧ hi ≤ 1 ∧ lo ≤ hi ∧
      ∀ t, lo ≤ t → t ≤ hi → inBox b (interp p q t) := by
  unfold segParamInterval at h
  cases h1 : clampGE p.1 (q.1 - p.1) b.xmin (0, 1) with
  | none => rw [h1] at h; exact absurd h (by simp)
  | some i1 =>
    rw [h1] at h
    dsimp only at h
    cases h2 : clampLE p.1 (q.1 - p.1) b.xmax i1 with
    | none => rw [h2] at h; exact absurd h (by simp)
    | some i2 =>
      rw [h2] at h
      dsimp only at h
      cases h3 : clampGE p.2 (q.2 - p.2) b.ymin i2 with
      | none => rw [h3] at h; exact absurd h (by simp)
      | some i3 =>
        rw [h3] at h
        dsimp only at h
        cases h4 : clampLE p.2 (q.2 - p.2) b.ymax i3 with
        | none => rw [h4] at h; exact absurd h (by simp)
        | some i4 =>
          rw [h4] at h
          dsimp only at h
          by_cases hle : i4.1 ≤ i4.2
          · rw [if_pos hle] at h
            injection h with h'
            subst h'
            obtain ⟨s1a, s1b⟩ := clampGE_subset h1
            obtain ⟨s2a, s2b⟩ := clampLE_subset h2
            obtain ⟨s3a, s3b⟩ := clampGE_subset h3
            obtain ⟨s4a, s4b⟩ := clampLE_subset h4
            dsimp only at s1a s1b s4a s4b hle
            refine ⟨by linarith, by linarith, hle, ?_⟩
            intro t ht1 ht2
            have c4 : p.2 + t * (q.2 - p.2) ≤ b.ymax :=
              clampLE_sound h4 (by dsimp only; linarith)
                (by dsimp only; linarith)
            have c3 : b.ymin ≤ p.2 + t * (q.2 - p.2) :=
              clampGE_sound h3 (by linarith) (by linarith)
            have c2 : p.1 + t * (q.1 - p.1) ≤ b.xmax :=
              clampLE_sound h2 (by linarith) (by linarith)
            have c1 : b.xmin ≤ p.1 + t * (q.1 - p.1) :=
              clampGE_sound h1 (by linarith) (by linarith)
            exact ⟨c1, c2, c3, c4⟩
          · rw [if_neg hle] at h
            exact absurd h (by simp)

theorem segClip_eq {b : Box} {p q s e : Q2}
    (h : segClip b p q = some (s, e)) :
    ∃ lo hi, segParamInterval b p q = some (lo, hi) ∧ lo < hi ∧
      s = interp p q lo ∧ e = interp p q hi := by
  unfold segClip at h
  cases hs : segParamInterval b p q with
  | none => rw [hs] at h; exact absurd h (by simp)
  | some iv =>
    obtain ⟨lo, hi⟩ := iv
    rw [hs] at h
    dsimp only at h
    by_cases hlt : lo < hi
    · rw [if_pos hlt] at h
      injection h with h'
      rw [Prod.mk.injEq] at h'
      exact ⟨lo, hi, rfl, hlt, h'.1.symm, h'.2.symm⟩
    · rw [if_neg hlt] at h
      exact absurd h (by simp)

theorem segClip_sound {b : Box} {p q s e : Q2}
    (h : segClip b p q = some (s, e)) : inBox b s ∧ inBox b e := by
  obtain ⟨lo, hi, hiv, hlt, hs, he⟩ := segClip_eq h
  obtain ⟨h0, h1, _, hmem⟩ := segParamInterval_sound hiv
  exact ⟨hs ▸ hmem lo le_rfl (le_of_lt hlt),
         he ▸ hmem hi (le_of_lt hlt) le_rfl⟩

theorem segClip_some_inBox {b : Box} {p q : Q2} {se : Q2 × Q2}
    (h : segClip b p q = some se) :
    ∃ t : ℚ, 0 ≤ t ∧ t ≤ 1 ∧ inBox b (interp p q t) := by
  obtain ⟨s, e⟩ := se
  obtain ⟨lo, hi, hiv, hlt, _, _⟩ := segClip_eq h
  obtain ⟨h0, h1, hle, hmem⟩ := segParamInterval_sound hiv
  exact ⟨lo, h0, le_trans hle h1, hmem lo le_rfl hle⟩

theorem clampGE_full {a d c : ℚ} (h0 : c ≤ a) (h1 : c ≤ a + d) :
    clampGE a d c (0, 1) = some (0, 1) := by
  unfold clampGE
  by_cases hd : 0 < d
  · rw [if_pos hd]
    have hq : (c - a) / d ≤ 0 := by
      rw [div_le_iff₀ hd]
      linarith
    dsimp only
    rw [max_eq_left hq]
  · rw [if_neg hd]
    by_cases hd2 : d < 0
    · rw [if_pos hd2]
      have hq : (1 : ℚ) ≤ (c - a) / d := by
        rw [le_div_iff_of_neg hd2]
        linarith
      dsimp only
      rw [min_eq_left hq]
    · rw [if_neg hd2, if_pos h0]

theorem clampLE_full {a d c : ℚ} (h0 : a ≤ c) (h1 : a + d ≤ c) :
    clampLE a d c (0, 1) = some (0, 1) := by
  unfold clampLE
  by_cases hd : 0 < d
  · rw [if_pos hd]
    have hq : (1 : ℚ) ≤ (c - a) / d := by
      rw [le_div_iff₀ hd]
      linarith
    dsimp only
    rw [min_eq_left hq]
  · rw [if_neg hd]
    by_cases hd2 : d < 0
    · rw [if_pos hd2]
      have hq : (c - a) / d ≤ 0 := by
        rw [div_le_iff_of_neg hd2]
        linarith
      dsimp only
      rw [max_eq_left hq]
    · rw [if_neg hd2, if_pos h0]

theorem interp_zero (p q : Q2) : interp p q 0 = p := by
  unfold interp
  simp

theorem interp_one (p q : Q2) : interp p q 1 = q := by
  unfold interp
  rw [Prod.ext_iff]
  constructor <;> dsimp <;> ring

theorem segClip_of_inBox {b : Box} {p q : Q2} (hp : inBox b p)
    (hq : inBox b q) : segClip b p q = some (p, q) := by
  obtain ⟨hp1, hp2, hp3, hp4⟩ := hp
  obtain ⟨hq1, hq2, hq3, hq4⟩ := hq
  have e1 : clampGE p.1 (q.1 - p.1) b.xmin (0, 1) = some (0, 1) :=
    clampGE_full hp1 (by linarith)
  have e2 : clampLE p.1 (q.1 - p.1) b.xmax (0, 1) = some (0, 1) :=
    clampLE_full hp2 (by linarith)
  have e3 : clampGE p.2 (q.2 - p.2) b.ymin (0, 1) = some (0, 1) :=
    clampGE_full hp3 (by linarith)
  have e4 : clampLE p.2 (q.2 - p.2) b.ymax (0, 1) = some (0, 1) :=
    clampLE_full hp4 (by linarith)
  unfold segClip segParamInterval
  rw [e1]
  dsimp only
  rw [e2]
  dsimp only
  rw [e3]
  dsimp only
  rw [e4]
  dsimp only
  rw [if_pos (by norm_num : (0 : ℚ) ≤ 1)]
  dsimp only
  rw [if_pos (by norm_num : (0 : ℚ) < 1)]
  rw [interp_zero, interp_one]

theorem pairs_cons (x y : Q2) (l : List Q2) :
    pairs (x :: y :: l) = (x, y) :: pairs (y :: l) := rfl

theorem pairs_mem {l : List Q2} {pr : Q2 × Q2} (h : pr ∈ pairs l) :
    pr.1 ∈ l ∧ pr.2 ∈ l := by
  obtain ⟨a, c⟩ := pr
  have h2 := List.of_mem_zip h
  exact ⟨h2.1, List.mem_of_mem_tail h2.2⟩

theorem stitchAll_all_some (xs : List Q2) :
    ∀ (x : Q2) (cur : List Q2), cur.head? = some x →
      stitchAll (some cur) ((pairs (x :: xs)).map some) =
        [cur.reverse ++ xs] := by
  induction xs with
  | nil =>
    intro x cur hcur
    simp [pairs, stitchAll]
  | cons y ys ih =>
    intro x cur hcur
    rw [pairs_cons, List.map_cons]
    rw [show stitchAll (some cur) (some (x, y) :: (pairs (y :: ys)).map some)
        = if cur.head? = some x then
            stitchAll (some (y :: cur)) ((pairs (y :: ys)).map some)
          else cur.reverse :: stitchAll (some [y, x])
            ((pairs (y :: ys)).map some) from rfl]
    rw [if_pos hcur]
    rw [ih y (y :: cur) rfl]
    simp

theorem clip_inside_unchanged (b : Box) (pts : List Q2)
    (hlen : 2 ≤ pts.length) (hin : ∀ p ∈ pts, inBox b p) :
    split_coastline_at_boundary_intersections b pts = [pts] := by
  rcases pts with _ | ⟨x, _ | ⟨y, rest⟩⟩
  · simp at hlen
  · simp at hlen
  · unfold split_coastline_at_boundary_intersections
    have hmap : (pairs (x :: y :: rest)).map (fun pr => segClip b pr.1 pr.2)
        = (pairs (x :: y :: rest)).map some := by
      apply List.map_congr_left
      intro pr hpr
      obtain ⟨h1, h2⟩ := pairs_mem hpr
      exact segClip_of_inBox (hin pr.1 h1) (hin pr.2 h2)
    rw [hmap, pairs_cons, List.map_cons]
    rw [show stitchAll none (some (x, y) :: (pairs (y :: rest)).map some)
        = stitchAll (some [y, x]) ((pairs (y :: rest)).map some) from rfl]
    rw [stitchAll_all_some rest y [y, x] rfl]
    simp

theorem stitchAll_none_of_all_none (l : List (Option (Q2 × Q2)))
    (h : ∀ o ∈ l, o = none) : stitchAll none l = [] := by
  induction l with
  | nil => rfl
  | cons o rest ih =>
    have ho := h o (List.mem_cons_self o rest)
    subst ho
    rw [show stitchAll none (none :: rest) = stitchAll none rest from rfl]
    exact ih fun o' ho' => h o' (List.mem_cons_of_mem _ ho')

theorem clip_outside_empty (b : Box) (pts : List Q2)
    (h : ∀ pr ∈ pairs pts, ∀ t : ℚ, 0 ≤ t → t ≤ 1 →
        ¬ inBox b (interp pr.1 pr.2 t)) :
    split_coastline_at_boundary_intersections b pts = [] := by
  unfold split_coastline_at_boundary_intersections
  apply stitchAll_none_of_all_none
  intro o ho
  rw [List.mem_map] at ho
  obtain ⟨pr, hpr, hval⟩ := ho
  cases hs : segClip b pr.1 pr.2 with
  | none => rw [hs] at hval; exact hval.symm
  | some se =>
    obtain ⟨t, ht0, ht1, htb⟩ := segClip_some_inBox hs
    exact absurd htb (h pr hpr t ht0 ht1)

theorem stitchAll_vertices (b : Box) (segs : List (Option (Q2 × Q2))) :
    ∀ (cur : Option (List Q2)),
    (∀ a c, some (a, c) ∈ segs → inBox b a ∧ inBox b c) →
    (∀ l, cur = some l → ∀ v ∈ l, inBox b v) →
    ∀ piece ∈ stitchAll cur segs, ∀ v ∈ piece, inBox b v := by
  induction segs with
  | nil =>
    intro cur hsegs hcur piece hpiece v hv
    cases cur with
    | none => simp [stitchAll] at hpiece
    | some c' =>
      simp only [stitchAll, List.mem_singleton] at hpiece
      subst hpiece
      exact hcur c' rfl v (List.mem_reverse.mp hv)
  | cons o rest ih =>
    intro cur hsegs hcur piece hpiece v hv
    have hsegs' : ∀ a c, some (a, c) ∈ rest → inBox b a ∧ inBox b c :=
      fun a c hm => hsegs a c (List.mem_cons_of_mem _ hm)
    cases o with
    | none =>
      cases cur with
      | none =>
        rw [show stitchAll none (none :: rest) = stitchAll none rest
            from rfl] at hpiece
        exact ih none hsegs' (fun l hl => absurd hl (by simp)) piece hpiece v hv
      | some c' =>
        rw [show stitchAll (some c') (none :: rest)
            = c'.reverse :: stitchAll none rest from rfl] at hpiece
        rcases List.mem_cons.mp hpiece with rfl | hm
        · exact hcur c' rfl v (List.mem_reverse.mp hv)
        · exact ih none hsegs' (fun l hl => absurd hl (by simp)) piece hm v hv
    | some pr =>
      obtain ⟨a, c⟩ := pr
      have hac := hsegs a c (List.mem_cons_self _ _)
      cases cur with
      | none =>
        rw [show stitchAll none (some (a, c) :: rest)
            = stitchAll (some [c, a]) rest from rfl] at hpiece
        refine ih (some [c, a]) hsegs' ?_ piece hpiece v hv
        intro l hl v' hv'
        injection hl with hl'
        subst hl'
        rcases List.mem_cons.mp hv' with rfl | hm
        · exact hac.2
        · rw [List.mem_singleton] at hm
          subst hm
          exact hac.1
      | some c' =>
        rw [show stitchAll (some c') (some (a, c) :: rest)
            = if c'.head? = some a then stitchAll (some (c :: c')) rest
              else c'.reverse :: stitchAll (some [c, a]) rest
            from rfl] at hpiece
        by_cases hh : c'.head? = some a
        · rw [if_pos hh] at hpiece
          refine ih (some (c :: c')) hsegs' ?_ piece hpiece v hv
          intro l hl v' hv'
          injection hl with hl'
          subst hl'
          rcases List.mem_cons.mp hv' with rfl | hm
          · exact hac.2
          · exact hcur c' rfl v' hm
        · rw [if_neg hh] at hpiece
          rcases List.mem_cons.mp hpiece with rfl | hm
          · exact hcur c' rfl v (List.mem_reverse.mp hv)
          · refine ih (some [c, a]) hsegs' ?_ piece hm v hv
            intro l hl v' hv'
            injection hl with hl'
            subst hl'
            rcases List.mem_cons.mp hv' with rfl | hm2
            · exact hac.2
            · rw [List.mem_singleton] at hm2
              subst hm2
              exact hac.1

theorem clip_vertices_inBox (b : Box) (pts : List Q2) :
    ∀ piece ∈ split_coastline_at_boundary_intersections b pts,
      ∀ v ∈ piece, inBox b v := by
  unfold split_coastline_at_boundary_intersections
  refine stitchAll_vertices b _ none ?_ ?_
  · intro a c hm
    rw [List.mem_map] at hm
    obtain ⟨pr, hpr, heq⟩ := hm
    exact segClip_sound heq
  · intro l hl
    exact absurd hl (by simp)

/-- C7: the Frame Clipper returns exactly the parts of the input polyline
inside the rectangle: a polyline with every vertex inside the frame is
returned unchanged as one piece; a polyline no point of which lies in the
frame yields zero pieces; every vertex of every returned piece lies
inside the frame; and a polyline entering and leaving the frame twice
yields two disjoint pieces. -/
theorem frame_clipper_spec :
    (∀ (b : Box) (pts : List Q2), 2 ≤ pts.length →
      (∀ p ∈ pts, inBox b p) →
      split_coastline_at_boundary_intersections b pts = [pts])
    ∧ (∀ (b : Box) (pts : List Q2),
      (∀ pr ∈ pairs pts, ∀ t : ℚ, 0 ≤ t → t ≤ 1 →
        ¬ inBox b (interp pr.1 pr.2 t)) →
      split_coastline_at_boundary_intersections b pts = [])
    ∧ (∀ (b : Box) (pts : List Q2) (piece : List Q2) (v : Q2),
      piece ∈ split_coastline_at_boundary_intersections b pts →
      v ∈ piece → inBox b v)
    ∧ split_coastline_at_boundary_intersections ⟨0, 0, 10, 10⟩
        [(-5, 2), (15, 2), (15, 8), (-5, 8)]
        = [[(0, 2), (10, 2)], [(10, 8), (0, 8)]] := by
  refine ⟨clip_inside_unchanged, clip_outside_empty,
    fun b pts piece v h1 h2 => clip_vertices_inBox b pts piece h1 v h2, ?_⟩
  have h1 : segClip ⟨0, 0, 10, 10⟩ (-5, 2) (15, 2)
      = some ((0, 2), (10, 2)) := by
    norm_num [segClip, segParamInterval, clampGE, clampLE, interp]
  have h2 : segClip ⟨0, 0, 10, 10⟩ (15, 2) (15, 8) = none := by
    norm_num [segClip, segParamInterval, clampGE, clampLE]
  have h3 : segClip ⟨0, 0, 10, 10⟩ (15, 8) (-5, 8)
      = some ((10, 8), (0, 8)) := by
    norm_num [segClip, segParamInterval, clampGE, clampLE, interp]
  unfold split_coastline_at_boundary_intersections
  rw [show pairs [(-5, 2), (15, 2), (15, 8), (-5, 8)]
      = [((-5, 2), (15, 2)), ((15, 2), (15, 8)), ((15, 8), (-5, 8))]
      from rfl]
  rw [List.map_cons, List.map_cons, List.map_cons, List.map_nil]
  dsimp only
  rw [h1, h2, h3]
  rfl

/-- C7 witness: the clipper leaves a fully-inside polyline unchanged, and
returns zero pieces for a polyline lying entirely outside the frame. -/
theorem frame_clipper_spec_witness :
    split_coastline_at_boundary_intersections ⟨0, 0, 10, 10⟩
      [(1, 1), (2, 2)] = [[(1, 1), (2, 2)]]
    ∧ split_coastline_at_boundary_intersections ⟨0, 0, 10, 10⟩
      [(20, 20), (30, 20)] = [] := by
  constructor
  · exact frame_clipper_spec.1 ⟨0, 0, 10, 10⟩ [(1, 1), (2, 2)] (by decide)
      (by decide)
  · refine frame_clipper_spec.2.1 ⟨0, 0, 10, 10⟩ [(20, 20), (30, 20)] ?_
    intro pr hpr t h0 h1 hib
    rw [show pairs [((20 : ℚ), (20 : ℚ)), (30, 20)]
        = [((20, 20), (30, 20))] from rfl] at hpr
    rw [List.mem_singleton] at hpr
    subst hpr
    have h2 := hib.2.2.2
    dsimp only [interp] at h2
    linarith

/-! ### C9: frame containment of the segment network and of the water
polygons built from it. -/

theorem convex_le {x y lo : ℚ} (hx : lo ≤ x) (hy : lo ≤ y) {t : ℚ}
    (h0 : 0 ≤ t) (h1 : t ≤ 1) : lo ≤ x + t * (y - x) := by
  have p1 : 0 ≤ t * (y - lo) := mul_nonneg h0 (by linarith)
  have p2 : 0 ≤ (1 - t) * (x - lo) := mul_nonneg (by linarith) (by linarith)
  nlinarith

theorem convex_ge {x y hi : ℚ} (hx : x ≤ hi) (hy : y ≤ hi) {t : ℚ}
    (h0 : 0 ≤ t) (h1 : t ≤ 1) : x + t * (y - x) ≤ hi := by
  have p1 : 0 ≤ t * (hi - y) := mul_nonneg h0 (by linarith)
  have p2 : 0 ≤ (1 - t) * (hi - x) := mul_nonneg (by linarith) (by linarith)
  nlinarith

theorem interp_inBox {b : Box} {p q : Q2} (hp : inBox b p) (hq : inBox b q)
    {t : ℚ} (h0 : 0 ≤ t) (h1 : t ≤ 1) : inBox b (interp p q t) := by
  obtain ⟨hp1, hp2, hp3, hp4⟩ := hp
  obtain ⟨hq1, hq2, hq3, hq4⟩ := hq
  exact ⟨convex_le hp1 hq1 h0 h1, convex_ge hp2 hq2 h0 h1,
    convex_le hp3 hq3 h0 h1, convex_ge hp4 hq4 h0 h1⟩

theorem polylineInterp_inBox {b : Box} :
    ∀ (coords : List Q2), coords ≠ [] → (∀ p ∈ coords, inBox b p) →
      ∀ d : ℚ, 0 ≤ d → inBox b (polylineInterp coords d) := by
  intro coords
  induction coords with
  | nil => intro h; exact absurd rfl h
  | cons p rest ih =>
    intro _ hmem d hd
    cases rest with
    | nil => exact hmem p (List.mem_cons_self _ _)
    | cons q rest' =>
      rw [show polylineInterp (p :: q :: rest') d
          = if d ≤ |q.1 - p.1| + |q.2 - p.2| then
              pointAlong p q d (|q.1 - p.1| + |q.2 - p.2|)
            else polylineInterp (q :: rest')
              (d - (|q.1 - p.1| + |q.2 - p.2|)) from rfl]
      have hp := hmem p (List.mem_cons_self _ _)
      have hq := hmem q (List.mem_cons_of_mem _ (List.mem_cons_self _ _))
      by_cases hlen : d ≤ |q.1 - p.1| + |q.2 - p.2|
      · rw [if_pos hlen]
        unfold pointAlong
        by_cases h0 : |q.1 - p.1| + |q.2 - p.2| = 0
        · rw [if_pos h0]; exact hp
        · rw [if_neg h0]
          have hpos : 0 < |q.1 - p.1| + |q.2 - p.2| :=
            lt_of_le_of_ne (by positivity) (Ne.symm h0)
          exact interp_inBox hp hq (div_nonneg hd (le_of_lt hpos))
            ((div_le_one hpos).mpr hlen)
      · rw [if_neg hlen]
        exact ih (by simp) (fun p' hp' => hmem p' (List.mem_cons_of_mem _ hp'))
          _ (by linarith [not_le.mp hlen])

theorem polylineInterp_const {c : Q2} :
    ∀ (coords : List Q2), coords ≠ [] → (∀ p ∈ coords, p = c) →
      ∀ d : ℚ, polylineInterp coords d = c := by
  intro coords
  induction coords with
  | nil => intro h; exact absurd rfl h
  | cons p rest ih =>
    intro _ hmem d
    have hp := hmem p (List.mem_cons_self _ _)
    cases rest with
    | nil => exact hp
    | cons q rest' =>
      have hq := hmem q (List.mem_cons_of_mem _ (List.mem_cons_self _ _))
      rw [show polylineInterp (p :: q :: rest') d
          = if d ≤ |q.1 - p.1| + |q.2 - p.2| then
              pointAlong p q d (|q.1 - p.1| + |q.2 - p.2|)
            else polylineInterp (q :: rest')
              (d - (|q.1 - p.1| + |q.2 - p.2|)) from rfl]
      have hzero : |q.1 - p.1| + |q.2 - p.2| = 0 := by
        rw [hp, hq]
        simp
      rw [hzero]
      by_cases hd : d ≤ 0
      · rw [if_pos hd]
        unfold pointAlong
        rw [if_pos rfl]
        exact hp
      · rw [if_neg hd]
        exact ih (by simp) (fun p' hp' => hmem p' (List.mem_cons_of_mem _ hp')) _

theorem qmod_nonneg {d m : ℚ} (hm : 0 < m) : 0 ≤ qmod d m := by
  unfold qmod
  have h1 : ((⌊d / m⌋ : ℤ) : ℚ) ≤ d / m := Int.floor_le _
  have h2 : m * ((⌊d / m⌋ : ℤ) : ℚ) ≤ m * (d / m) :=
    mul_le_mul_of_nonneg_left h1 (le_of_lt hm)
  have h3 : m * (d / m) = d := by
    field_simp
  linarith

theorem boxExteriorCoords_inBox {b : Box} (hx : b.xmin ≤ b.xmax)
    (hy : b.ymin ≤ b.ymax) : ∀ p ∈ boxExteriorCoords b, inBox b p := by
  intro p hp
  unfold boxExteriorCoords at hp
  simp only [List.mem_cons, List.not_mem_nil, or_false] at hp
  rcases hp with rfl | rfl | rfl | rfl | rfl
  · exact ⟨hx, le_refl _, le_refl _, hy⟩
  · exact ⟨hx, le_refl _, hy, le_refl _⟩
  · exact ⟨le_refl _, hx, hy, le_refl _⟩
  · exact ⟨le_refl _, hx, le_refl _, hy⟩
  · exact ⟨hx, le_refl _, le_refl _, hy⟩

theorem rectInterp_qmod_inBox {b : Box} (hx : b.xmin ≤ b.xmax)
    (hy : b.ymin ≤ b.ymax) (v : ℚ) :
    inBox b (rectInterp b (qmod v (rectPerimeter b))) := by
  by_cases hz : rectPerimeter b = 0
  · have hxx : b.xmax = b.xmin := by
      unfold rectPerimeter at hz
      have h1 := abs_nonneg (b.xmax - b.xmin)
      have h2 := abs_nonneg (b.ymax - b.ymin)
      have h3 : |b.xmax - b.xmin| = 0 := by linarith
      have h4 := abs_eq_zero.mp h3
      linarith
    have hyy : b.ymax = b.ymin := by
      unfold rectPerimeter at hz
      have h1 := abs_nonneg (b.xmax - b.xmin)
      have h2 := abs_nonneg (b.ymax - b.ymin)
      have h3 : |b.ymax - b.ymin| = 0 := by linarith
      have h4 := abs_eq_zero.mp h3
      linarith
    have hall : ∀ p ∈ boxExteriorCoords b, p = ((b.xmax, b.ymin) : Q2) := by
      intro p hp
      unfold boxExteriorCoords at hp
      simp only [List.mem_cons, List.not_mem_nil, or_false] at hp
      rcases hp with rfl | rfl | rfl | rfl | rfl
      · rfl
      · rw [hyy]
      · rw [hxx, hyy]
      · rw [hxx]
      · rfl
    have hconst : polylineInterp (boxExteriorCoords b)
        (qmod v (rectPerimeter b)) = (b.xmax, b.ymin) :=
      polylineInterp_const (boxExteriorCoords b)
        (by simp [boxExteriorCoords]) hall _
    unfold rectInterp
    rw [hconst]
    exact ⟨hx, le_refl _, le_refl _, hy⟩
  · have hpos : 0 < rectPerimeter b := by
      have hnn : 0 ≤ rectPerimeter b := by
        unfold rectPerimeter
        positivity
      exact lt_of_le_of_ne hnn (Ne.symm hz)
    exact polylineInterp_inBox (boxExteriorCoords b)
      (by simp [boxExteriorCoords]) (boxExteriorCoords_inBox hx hy) _
      (qmod_nonneg hpos)

theorem frame_segments_inBox {b : Box} (hx : b.xmin ≤ b.xmax)
    (hy : b.ymin ≤ b.ymax) (tps : List Q2) :
    ∀ seg ∈ create_frame_with_coastline_vertices b tps, ∀ v ∈ seg,
      inBox b v := by
  intro seg hseg
  unfold create_frame_with_coastline_vertices at hseg
  by_cases he : tps.isEmpty
  · rw [if_pos he] at hseg
    simp only [List.mem_cons, List.not_mem_nil, or_false] at hseg
    intro v hv
    rcases hseg with rfl | rfl | rfl | rfl <;>
      (simp only [List.mem_cons, List.not_mem_nil, or_false] at hv
       rcases hv with rfl | rfl)
    · exact ⟨le_refl _, hx, le_refl _, hy⟩
    · exact ⟨hx, le_refl _, le_refl _, hy⟩
    · exact ⟨hx, le_refl _, le_refl _, hy⟩
    · exact ⟨hx, le_refl _, hy, le_refl _⟩
    · exact ⟨hx, le_refl _, hy, le_refl _⟩
    · exact ⟨le_refl _, hx, hy, le_refl _⟩
    · exact ⟨le_refl _, hx, hy, le_refl _⟩
    · exact ⟨le_refl _, hx, le_refl _, hy⟩
  · rw [if_neg he] at hseg
    simp only [List.mem_flatMap, List.mem_range] at hseg
    obtain ⟨i, _, hbody⟩ := hseg
    repeat' split at hbody
    all_goals first
      | exact absurd hbody (List.not_mem_nil seg)
      | (rw [List.mem_singleton] at hbody
         subst hbody
         intro v hv
         unfold frameArcCoords at hv
         rw [List.mem_map] at hv
         obtain ⟨j, _, rfl⟩ := hv
         exact rectInterp_qmod_inBox hx hy _)

/-- C9: for every polygonization whose output faces draw their vertices
from points on the input segments (the arrangement-vertex contract of
`shapely.ops.polygonize`), every vertex of every face computed from the
segment network of `fetch_enhanced_coastline_water` — and hence of every
water polygon selected from those faces — lies within the frame bounds. -/
theorem water_vertices_in_frame :
    ∀ (b : Box), b.xmin ≤ b.xmax → b.ymin ≤ b.ymax →
    ∀ (polygonizeF : List (List Q2) → List (List Q2)),
    (∀ (segs : List (List Q2)) (face : List Q2) (v : Q2),
      face ∈ polygonizeF segs → v ∈ face →
      ∃ seg ∈ segs, ∃ pr ∈ pairs seg, ∃ t : ℚ, 0 ≤ t ∧ t ≤ 1 ∧
        v = interp pr.1 pr.2 t) →
    ∀ (coastlines : List (List Q2)) (keep : List Q2 → Bool)
      (face : List Q2) (v : Q2),
      face ∈ (polygonizeF
        (enhanced_water_all_segments b coastlines)).filter keep →
      v ∈ face → inBox b v := by
  intro b hx hy F hF cls keep face v hface hv
  have hface2 : face ∈ F (enhanced_water_all_segments b cls) :=
    (List.mem_filter.mp hface).1
  obtain ⟨seg, hseg, pr, hpr, t, h0, h1, rfl⟩ := hF _ face v hface2 hv
  have hsegpts : ∀ p ∈ seg, inBox b p := by
    unfold enhanced_water_all_segments at hseg
    rcases List.mem_append.mp hseg with hcl | hfr
    · unfold clipAllCoastlines at hcl
      rw [List.mem_flatMap] at hcl
      obtain ⟨c, _, hmem⟩ := hcl
      exact fun p hp => clip_vertices_inBox b c seg hmem p hp
    · exact fun p hp => frame_segments_inBox hx hy _ seg hfr p hp
  obtain ⟨hpr1, hpr2⟩ := pairs_mem hpr
  exact interp_inBox (hsegpts _ hpr1) (hsegpts _ hpr2) h0 h1

/-- C9 witness: the theorem applied to the frame `(0,0)-(10,10)`, the
single fully-interior coastline `[(2,2),(3,3)]`, and a polygonizer that
returns that coastline piece as its one face. -/
theorem water_vertices_in_frame_witness : inBox ⟨0, 0, 10, 10⟩ (2, 2) := by
  have hseg : [((2 : ℚ), (2 : ℚ)), (3, 3)] ∈
      enhanced_water_all_segments ⟨0, 0, 10, 10⟩ [[(2, 2), (3, 3)]] := by
    unfold enhanced_water_all_segments clipAllCoastlines
    apply List.mem_append_left
    have hclip := clip_inside_unchanged ⟨0, 0, 10, 10⟩ [(2, 2), (3, 3)]
      (by decide) (by decide)
    simp [hclip]
  refine water_vertices_in_frame ⟨0, 0, 10, 10⟩ (by norm_num) (by norm_num)
    (fun segs => if segs = enhanced_water_all_segments ⟨0, 0, 10, 10⟩
        [[(2, 2), (3, 3)]] then [[(2, 2), (3, 3)]] else [])
    ?_ [[(2, 2), (3, 3)]] (fun _ => true) [(2, 2), (3, 3)] (2, 2) ?_ ?_
  · intro segs face v hface hv
    dsimp only at hface
    by_cases hX : segs = enhanced_water_all_segments ⟨0, 0, 10, 10⟩
        [[(2, 2), (3, 3)]]
    · rw [if_pos hX] at hface
      rw [List.mem_singleton] at hface
      subst hface
      subst hX
      simp only [List.mem_cons, List.not_mem_nil, or_false] at hv
      rcases hv with rfl | rfl
      · exact ⟨[(2, 2), (3, 3)], hseg, ((2, 2), (3, 3)), by simp [pairs], 0,
          le_refl 0, by norm_num, (interp_zero _ _).symm⟩
      · exact ⟨[(2, 2), (3, 3)], hseg, ((2, 2), (3, 3)), by simp [pairs], 1,
          by norm_num, le_refl 1, (interp_one _ _).symm⟩
    · rw [if_neg hX] at hface
      exact absurd hface (List.not_mem_nil face)
  · dsimp only
    rw [if_pos rfl]
    simp
  · simp

/-! ### C4: the two-face scenario. Evaluating the pipeline on the frame
(0,0)-(100,100) with the single coastline from (0,50) to (100,50). -/

/-- C4 (the code evaluated at the claim's scenario): the coastline is
clipped unchanged, both endpoints are recorded as touch points at arc
positions 50 and 250, but `create_frame_with_coastline_vertices` emits
*no* frame segments — each of the two arcs between the touch points is
exactly half the 400 m perimeter, and the source only emits arcs
strictly shorter than half, with no branch for longer arcs — so the
network handed to `polygonize` is just the single open coastline, from
which no face can be formed: the pipeline yields 0 faces, not 2. -/
theorem scenario_frame_segments_empty :
    create_frame_with_coastline_vertices ⟨0, 0, 100, 100⟩
        (collectTouchPoints ⟨0, 0, 100, 100⟩
          (clipAllCoastlines ⟨0, 0, 100, 100⟩ [[(0, 50), (100, 50)]])) = []
    ∧ enhanced_water_all_segments ⟨0, 0, 100, 100⟩ [[(0, 50), (100, 50)]]
        = [[(0, 50), (100, 50)]] := by
  have h_clip : split_coastline_at_boundary_intersections ⟨0, 0, 100, 100⟩
      [(0, 50), (100, 50)] = [[(0, 50), (100, 50)]] :=
    clip_inside_unchanged ⟨0, 0, 100, 100⟩ [(0, 50), (100, 50)] (by decide)
      (by decide)
  have h_clipAll : clipAllCoastlines ⟨0, 0, 100, 100⟩
      [[(0, 50), (100, 50)]] = [[(0, 50), (100, 50)]] := by
    unfold clipAllCoastlines
    simp [h_clip]
  have h_touch : collectTouchPoints ⟨0, 0, 100, 100⟩ [[(0, 50), (100, 50)]]
      = [(0, 50), (100, 50)] := by
    unfold collectTouchPoints
    norm_num [sqDistToFrame, sqDistToSeg, clampQ, min_def, max_def]
  have hpairs : pairs (boxExteriorCoords ⟨0, 0, 100, 100⟩)
      = [((100, 0), (100, 100)), ((100, 100), (0, 100)),
         ((0, 100), (0, 0)), ((0, 0), (100, 0))] := rfl
  have h_proj1 : rectProject ⟨0, 0, 100, 100⟩ (0, 50) = 250 := by
    norm_num [rectProject, hpairs, projectWalk, clampQ, min_def, max_def]
  have h_proj2 : rectProject ⟨0, 0, 100, 100⟩ (100, 50) = 50 := by
    norm_num [rectProject, hpairs, projectWalk, clampQ, min_def, max_def]
  have h_i250 : rectInterp ⟨0, 0, 100, 100⟩ 250 = (0, 50) := by
    norm_num [rectInterp, boxExteriorCoords, polylineInterp, pointAlong,
      interp]
  have h_i50 : rectInterp ⟨0, 0, 100, 100⟩ 50 = (100, 50) := by
    norm_num [rectInterp, boxExteriorCoords, polylineInterp, pointAlong,
      interp]
  have h_per : rectPerimeter ⟨0, 0, 100, 100⟩ = 400 := by
    norm_num [rectPerimeter]
  have h_frame : create_frame_with_coastline_vertices ⟨0, 0, 100, 100⟩
      [(0, 50), (100, 50)] = [] := by
    unfold create_frame_with_coastline_vertices
    rw [if_neg (by decide)]
    norm_num [h_proj1, h_proj2, h_i250, h_i50, h_per, sortPos, insertPos,
      posLE, dedupPositions, dedupPositions.dedupPositionsGo,
      List.range_succ, List.getD_cons_zero, List.getD_cons_succ]
  refine ⟨?_, ?_⟩
  · rw [h_clipAll, h_touch, h_frame]
  · unfold enhanced_water_all_segments
    rw [h_clipAll, h_touch, h_frame]
    simp
